import Mathlib

/-!
Verification of the partitioned parallel aggregation pipeline of `src/main.rs`
(a one-billion-row-challenge style aggregator).

Shallow embedding conventions:
* The input file is a list of bytes, `List Nat` (each entry `< 256` in real
  inputs; nothing below depends on that bound).  The record terminator is the
  newline byte `10`, the field separator the semicolon byte `59`.
* `f64` values are modelled as exact rationals `ℚ`.  The sentinel start values
  `f64::MAX` / `f64::MIN` of `Station::default` (main.rs lines 10-19) are
  modelled as `⊤ : WithTop ℚ` / `⊥ : WithBot ℚ`, matching their role as
  "conceptually +∞ / −∞" unset markers: every finite value compares below
  `f64::MAX` and above `f64::MIN` exactly as it does against `⊤` / `⊥`.
* Code paths that panic in Rust (slice index out of range, `unwrap` of `None`,
  `usize` underflow in debug builds, `parse::<f64>` failure) and the one loop
  that can run forever (the planner's newline scan at end of file) are
  modelled as `none : Option _`.
* The `BTreeMap`s are modelled as association lists kept sorted by the byte
  wise lexicographic key order `keyLt`, which is the `Ord` instance Rust uses
  for `&[u8]` and for `String` (comparison of the UTF-8 bytes).
* Keys reach the global map through `str::from_utf8(..).unwrap().to_string()`;
  the formatter below renders a key by mapping each byte to the character with
  that code point, which agrees with UTF-8 decoding on ASCII keys (all keys
  exercised here are ASCII).
* A thread's single `thread_file.read(&mut contents)` call is modelled as a
  full read of the requested range (short reads are an OS-level concern).
-/

/-! ## Record Model: `Station` (main.rs lines 3-47) -/

/-- `struct Station { min: f64, max: f64, sum: f64, values_read: u64 }`. -/
structure Station where
  min : WithTop ℚ
  max : WithBot ℚ
  sum : ℚ
  values_read : ℕ
deriving DecidableEq, Repr

/-- `Station::default`: `min = f64::MAX`, `max = f64::MIN`, `sum = 0.0`,
`values_read = 0` (main.rs lines 10-19); the sentinels are modelled as the
top / bottom elements. -/
def Station.default : Station := ⟨⊤, ⊥, 0, 0⟩

/-- `Station::update` (main.rs lines 22-27). -/
def Station.update (s : Station) (v : ℚ) : Station :=
  ⟨Min.min s.min (v : WithTop ℚ), Max.max s.max (v : WithBot ℚ),
    s.sum + v, s.values_read + 1⟩

/-- `Station::merge` (main.rs lines 29-34). -/
def Station.merge (s o : Station) : Station :=
  ⟨Min.min s.min o.min, Max.max s.max o.max,
    s.sum + o.sum, s.values_read + o.values_read⟩

/-- `f64::MAX` as an exact rational, used only when rendering a `Station`
whose `min` was never updated (unreachable in a successful run). -/
def f64MAXQ : ℚ := 2 ^ 1024 - 2 ^ 971

/-- Round-half-to-even of `q * 10` to an integer, the rounding Rust's `{:.1}`
float formatting performs, followed by rendering with one digit after the
decimal point.  (For a negative zero result Rust would print a leading `-`
that this model omits; no claim exercises that case.) -/
def fmtFixed1 (q : ℚ) : String :=
  let f : ℤ := (q * 10).floor
  let r : ℚ := q * 10 - f
  let n : ℤ := if r < 1/2 then f else if 1/2 < r then f + 1
    else if f % 2 = 0 then f else f + 1
  (if n < 0 then "-" else "") ++ toString (n.natAbs / 10) ++ "." ++
    toString (n.natAbs % 10)

/-- `Display for Station` (main.rs lines 43-47):
`"{:.1}/{:.1}/{:.1}"` of `min`, `sum / values_read`, `max`. -/
def Station.render (s : Station) : String :=
  fmtFixed1 (WithTop.untop' f64MAXQ s.min) ++ "/" ++
    fmtFixed1 (s.sum / (s.values_read : ℚ)) ++ "/" ++
    fmtFixed1 (WithBot.unbot' (-f64MAXQ) s.max)

/-! ## Keys and sorted maps -/

/-- A map key: the raw bytes of a station name. -/
abbrev Key := List Nat

/-- Byte-wise lexicographic order on byte strings, the Rust `Ord` of `&[u8]`
(and of `String`, which compares its UTF-8 bytes). -/
def keyLt : Key → Key → Bool
  | [], [] => false
  | [], _ :: _ => true
  | _ :: _, [] => false
  | a :: as, b :: bs => if a < b then true else if b < a then false else keyLt as bs

/-- A `BTreeMap<_, Station>` as an association list sorted by `keyLt`. -/
abbrev StMap := List (Key × Station)

/-- `block_results.entry(name).or_default().update(temp)` (main.rs line 120):
sorted-map insertion that creates a `Station::default` on first sighting and
calls `update` on it or on the existing entry. -/
def insertUpdate : StMap → Key → ℚ → StMap
  | [], k, v => [(k, Station.default.update v)]
  | (k', s') :: rest, k, v =>
    if k = k' then (k', s'.update v) :: rest
    else if keyLt k k' then (k, Station.default.update v) :: (k', s') :: rest
    else (k', s') :: insertUpdate rest k v

/-- `results_writer.entry(name).or_default().merge(station)` (main.rs line
145): sorted-map insertion that creates a `Station::default` on a missing key
and calls `merge` on it or on the existing entry. -/
def insertMerge : StMap → Key → Station → StMap
  | [], k, s => [(k, Station.default.merge s)]
  | (k', s') :: rest, k, s =>
    if k = k' then (k', s'.merge s) :: rest
    else if keyLt k k' then (k, Station.default.merge s) :: (k', s') :: rest
    else (k', s') :: insertMerge rest k s

/-- `BTreeMap` key lookup on the association-list model. -/
def mapLookup : StMap → Key → Option Station
  | [], _ => none
  | (k', s') :: rest, k => if k = k' then some s' else mapLookup rest k

/-! ## Numeric field parsing

`str::from_utf8(..).unwrap().parse::<f64>().unwrap()` (main.rs lines 119 and
137), restricted to the number shapes the specification admits: an optional
sign, decimal digits, at most one decimal point, no exponent.  A failing parse
(or invalid UTF-8, which for these shapes coincides with a failing parse) is a
panic, modelled as `none`. -/

/-- Digit-string value; `none` on a non-digit byte, `some 0` on `[]`. -/
def digitsVal : List Nat → Option ℕ
  | [] => some 0
  | b :: bs =>
    if 48 ≤ b ∧ b ≤ 57 then
      (digitsVal bs).map (fun n => (b - 48) * 10 ^ bs.length + n)
    else none

/-- Unsigned decimal number, optionally with one decimal point. -/
def parseUnsigned (bs : List Nat) : Option ℚ :=
  if bs.contains 46 then
    let ip := bs.takeWhile (· ≠ 46)
    let fp := (bs.dropWhile (· ≠ 46)).drop 1
    if fp.contains 46 then none
    else match digitsVal ip, digitsVal fp with
      | some i, some f =>
        if ip.isEmpty ∧ fp.isEmpty then none
        else some ((i : ℚ) + (f : ℚ) / 10 ^ fp.length)
      | _, _ => none
  else match digitsVal bs with
    | some n => if bs.isEmpty then none else some (n : ℚ)
    | none => none

/-- Signed decimal number: `parse::<f64>` on the admitted shapes. -/
def parseNum : List Nat → Option ℚ
  | 45 :: rest => (parseUnsigned rest).map Neg.neg
  | 43 :: rest => parseUnsigned rest
  | bs => parseUnsigned bs

/-! ## Partition Planner (main.rs lines 55-77) -/

/-- `((length / cores) as f64).ceil() as usize` (main.rs line 58): the
`usize` division truncates first; the exact value of that quotient is then
carried to `f64` (exact for every realistic file size) and `ceil`ed.  The
rational ceiling is written out with integer arithmetic so that it computes. -/
def division (L P : ℕ) : ℕ :=
  (((((L / P : ℕ) : ℚ)).num + ((((L / P : ℕ) : ℚ)).den : ℤ) - 1) /
    ((((L / P : ℕ) : ℚ)).den : ℤ)).toNat

/-- The boundary scan (main.rs lines 69-75): starting at stream position
`pos`, repeatedly `read` one byte into `buf` and stop when `buf[0]` is `\n`
or `0`.  `buf[0]` starts as `0` and a read at end of file reads nothing and
leaves `buf[0]` unchanged, so once the cursor is at end of file the loop
terminates only if the byte already in `buf` is a newline or `0` — otherwise
it spins forever, modelled as `none`.  On `some p`, `p` is the resulting
stream position. -/
def scanNL (file : List Nat) : ℕ → ℕ → ℕ → Option ℕ
  | 0, _, _ => none
  | fuel + 1, pos, last =>
    if pos < file.length then
      let b := file.getD pos 0
      if b = 10 ∨ b = 0 then some (pos + 1)
      else scanNL file fuel (pos + 1) b
    else if last = 10 ∨ last = 0 then some pos else none

/-- The planner loop (main.rs lines 64-77): at most `cores` times, seek
forward by `division`, stop once the position reaches the file length,
otherwise scan to just past the next newline and push that position. -/
def planLoop (file : List Nat) (d : ℕ) : ℕ → ℕ → List ℕ → Option (List ℕ)
  | 0, _, acc => some acc.reverse
  | n + 1, pos, acc =>
    let pos' := pos + d
    if file.length ≤ pos' then some acc.reverse
    else match scanNL file (file.length + 1) pos' 0 with
      | none => none
      | some p => planLoop file d n p (p :: acc)

/-- `starting_offsets` as computed by main.rs lines 59-77 for a file of the
given bytes and a partition count `P` (`cores`); `none` when the scan loop
never terminates. -/
def planOffsets (file : List Nat) (P : ℕ) : Option (List ℕ) :=
  planLoop file (division file.length P) P 0 [0]

/-- The byte range `[start, end)` each spawned thread reads (main.rs lines
91-95): consecutive starting offsets, the last thread ending at the file
length. -/
def partitionRanges (offs : List ℕ) (L : ℕ) : List (ℕ × ℕ) :=
  offs.zip (offs.drop 1 ++ [L])

/-! ## Chunk Processor (main.rs lines 96-140) -/

/-- `if *(contents.last().unwrap()) == b'\n' { contents.pop(); }` (main.rs
lines 101-103), on a nonempty chunk. -/
def trimContents (c : List Nat) : List Nat :=
  if c.getLast? = some 10 then c.dropLast else c

/-- The semicolon scan of one record (main.rs lines 111-116 and 130-135):
`semicolon_idx` starts at `0` and is overwritten by every semicolon position
in `[lo, hi)`, so it ends at the last one. -/
def lastSepIdx (t : List Nat) (lo hi : ℕ) : ℕ :=
  (List.range' lo (hi - lo)).foldl (fun acc j => if t.getD j 0 = 59 then j else acc) 0

/-- Splitting one record `[lo, hi)` into name and value bytes (main.rs lines
118-119 and 136-137): `name = &contents[lo..semicolon_idx]`,
`value = &contents[semicolon_idx + 1..hi]`; a backwards slice bound is a
panic. -/
def splitLine (t : List Nat) (lo hi : ℕ) : Option (List Nat × List Nat) :=
  let si := lastSepIdx t lo hi
  if si < lo then none
  else if hi < si + 1 then none
  else some ((t.drop lo).take (si - lo), (t.drop (si + 1)).take (hi - (si + 1)))

/-- The tokenizing `while` loop (main.rs lines 106-127): walk `i` across the
trimmed contents; at each newline, split and parse the record since
`last_idx` and fold it into the chunk-local map, then restart just past the
newline.  Returns the final map and `last_idx`. -/
def chunkLoop (t : List Nat) : ℕ → ℕ → ℕ → StMap → Option (StMap × ℕ)
  | 0, _, _, _ => none
  | fuel + 1, i, lastIdx, m =>
    if i < t.length then
      if t.getD i 0 = 10 then
        match splitLine t lastIdx i with
        | none => none
        | some (name, vbytes) =>
          match parseNum vbytes with
          | none => none
          | some v => chunkLoop t fuel (i + 1) (i + 1) (insertUpdate m name v)
      else chunkLoop t fuel (i + 1) lastIdx m
    else some (m, lastIdx)

/-- One worker's chunk processing (main.rs lines 96-140): read the chunk,
trim one trailing newline, run the tokenizing loop, then handle the final
unterminated record when `last_idx < content_len - 1` — a `usize` subtraction
that wraps on an empty buffer, making the test true there.  An empty chunk
panics at `contents.last().unwrap()`. -/
def processChunk (c : List Nat) : Option StMap :=
  if c.isEmpty then none
  else
    let t := trimContents c
    match chunkLoop t (t.length + 1) 0 0 [] with
    | none => none
    | some (m, lastIdx) =>
      if lastIdx + 1 < t.length ∨ t.length = 0 then
        match splitLine t lastIdx t.length with
        | none => none
        | some (name, vbytes) =>
          match parseNum vbytes with
          | none => none
          | some v => some (insertUpdate m name v)
      else some m

/-! ## Reducer (main.rs lines 142-147) -/

/-- Folding one chunk-local map into the global map: iterate the chunk map in
its (sorted) order and `entry(..).or_default().merge(..)` each entry. -/
def chunkFold (g : StMap) (cm : StMap) : StMap :=
  cm.foldl (fun g' e => insertMerge g' e.1 e.2) g

/-- The whole reduce phase: fold every chunk-local map into the initially
empty global map.  The list order is the order in which workers took the
mutex, which claim C9 quantifies over. -/
def reduceAll (cs : List StMap) : StMap :=
  cs.foldl chunkFold []

/-! ## Formatter (main.rs lines 152-163) -/

/-- Render a key's bytes as the printed string (UTF-8 decoding, exact on the
ASCII keys exercised here). -/
def keyStr (k : Key) : String :=
  String.mk (k.map Char.ofNat)

/-- One `name=min/mean/max` entry. -/
def entryStr (e : Key × Station) : String :=
  keyStr e.1 ++ "=" ++ e.2.render

/-- The printed line (without the trailing newline of `println!`): all but
the last entry with `", "` after each (`iter.take(len - 1)`), then the last
entry, wrapped in braces.  On an empty map `result_map.len() - 1` underflows
(a panic in debug builds) and `last_key_value().unwrap()` panics in any
build, so the model is `none` there. -/
def formatOutput : StMap → Option String
  | [] => none
  | e :: rest =>
    some ("\x7b" ++
      String.join (((e :: rest).dropLast).map (fun x => entryStr x ++ ", ")) ++
      (match (e :: rest).getLast? with | some x => entryStr x | none => "") ++ "\x7d")

/-! ## The whole program -/

/-- Process every partition (the spawned threads of main.rs lines 82-150);
a panic in any worker aborts the run. -/
def processAll (file : List Nat) : List (ℕ × ℕ) → Option (List StMap)
  | [] => some []
  | (s, e) :: rest =>
    match processChunk ((file.drop s).take (e - s)), processAll file rest with
    | some m, some ms => some (m :: ms)
    | _, _ => none

/-- End-to-end run of `main` on a file of the given bytes with `P` available
cores: plan the partitions, process every chunk, reduce, format.  `none`
models a panic or a hang anywhere along the way. -/
def runProgram (file : List Nat) (P : ℕ) : Option String :=
  match planOffsets file P with
  | none => none
  | some offs =>
    match processAll file (partitionRanges offs file.length) with
    | none => none
    | some ms => formatOutput (reduceAll ms)

/-- The bytes of the record `[lo, hi)` inside a chunk: the record the
tokenizer is about to split at its last semicolon. -/
def recordSlice (t : List Nat) (lo hi : ℕ) : List Nat :=
  (t.drop lo).take (hi - lo)

/-! ## Claims settled by direct evaluation -/

/-- C1: the claim asserts planning never yields an empty partition and
completes on degenerate inputs.  Evaluating the embedded planner refutes it:
a zero-length file plans into the single empty partition `[0, 0)`, and the
two-byte file `"a\n"` with 4 requested partitions plans a boundary exactly at
the file length, producing the empty final partition `[2, 2)`; in both cases
the worker that receives the empty chunk panics at
`contents.last().unwrap()`, so the whole run aborts (`none`). -/
theorem c1_planner_degenerate_eval :
    planOffsets [] 4 = some [0] ∧
    partitionRanges [0] 0 = [(0, 0)] ∧
    runProgram [] 4 = none ∧
    planOffsets [97, 10] 4 = some [0, 2] ∧
    partitionRanges [0, 2] 2 = [(0, 2), (2, 2)] ∧
    runProgram [97, 10] 4 = none := by
  with_unfolding_all decide

/-- C2: the claim asserts the Formatter yields exactly `"{}"` on the empty
global mapping.  The code instead panics there: `result_map.len() - 1`
underflows and `last_key_value().unwrap()` is an `unwrap` of `None`; the
embedded formatter accordingly returns `none`, not `some "{}"`. -/
theorem c2_formatter_empty_eval : formatOutput [] = none := by
  with_unfolding_all decide

/-- C3: on the single unterminated record `"X;5.5"` the program produces
`{X=5.5/5.5/5.5}` only for partition count 1; for `P = 2` (and any larger
`P`) the planner's newline scan reaches end of file with a non-newline byte
in its one-byte buffer and loops forever, so the run never completes. -/
theorem c3_single_record_eval :
    runProgram [88, 59, 53, 46, 53] 1 = some "{X=5.5/5.5/5.5}" ∧
    planOffsets [88, 59, 53, 46, 53] 2 = none ∧
    runProgram [88, 59, 53, 46, 53] 2 = none := by
  with_unfolding_all decide

/-- C4: the claim states the planner stride is `⌈L / P⌉`; at `L = 3`,
`P = 2` the code's stride (integer division first, `ceil` after) is `1`
while `⌈3 / 2⌉ = 2`. -/
theorem c4_stride_counterexample :
    ¬ (division 3 2 = Int.toNat ⌈(3 : ℚ) / (2 : ℚ)⌉) := by
  have h1 : division 3 2 = 1 := by with_unfolding_all decide
  have h2 : (⌈(3 : ℚ) / (2 : ℚ)⌉ : ℤ) = 2 := by
    rw [Int.ceil_eq_iff]
    norm_num
  rw [h1, h2]
  decide

/-- C4 (amended): the stride is the floor `L / P`: the `usize` division
truncates before the value ever reaches `f64`, so the later `ceil` is the
identity. -/
theorem c4_stride_eq_floor (L P : ℕ) : division L P = L / P := by
  have h : ((L / P : ℕ) : ℚ).num = ((L / P : ℕ) : ℤ) := Rat.num_natCast _
  have hd : ((L / P : ℕ) : ℚ).den = 1 := Rat.den_natCast _
  simp only [division, h, hd]
  norm_num
  rw [← Int.natCast_div]
  exact Int.toNat_natCast _

/-! ## Algebra of `Station.update` and `Station.merge` -/

theorem Station.merge_comm (a b : Station) : a.merge b = b.merge a := by
  simp [Station.merge, min_comm, max_comm, add_comm]

theorem Station.merge_assoc (a b c : Station) :
    (a.merge b).merge c = a.merge (b.merge c) := by
  simp [Station.merge, min_assoc, max_assoc, add_assoc]

theorem Station.merge_right_comm (a : Station) (b c : Station) :
    (a.merge b).merge c = (a.merge c).merge b := by
  rw [Station.merge_assoc, Station.merge_comm b c, ← Station.merge_assoc]

theorem Station.default_merge (s : Station) : Station.default.merge s = s := by
  simp [Station.merge, Station.default]

theorem Station.merge_default (s : Station) : s.merge Station.default = s := by
  simp [Station.merge, Station.default]

theorem Station.update_swap (s : Station) (v w : ℚ) :
    (s.update v).update w = (s.update w).update v := by
  simp [Station.update, min_right_comm, sup_right_comm, add_right_comm]

theorem Station.update_eq_merge_unit (s : Station) (v : ℚ) :
    s.update v = s.merge (Station.default.update v) := by
  simp [Station.update, Station.merge, Station.default]

theorem Station.foldl_update_eq_merge (l : List ℚ) :
    ∀ s : Station, l.foldl Station.update s =
      s.merge (l.foldl Station.update Station.default) := by
  induction l with
  | nil => intro s; simp [Station.merge_default]
  | cons v l ih =>
    intro s
    rw [List.foldl_cons, List.foldl_cons, ih (s.update v),
      ih (Station.default.update v), ← Station.merge_assoc,
      ← Station.update_eq_merge_unit]

/-- Generic: a fold by a step function that commutes with itself (on states
satisfying an invariant the step preserves) is invariant under permutations
of the folded list. -/
theorem foldl_perm_of_comm {α β : Type} (step : β → α → β) (P : β → Prop)
    (hpres : ∀ b a, P b → P (step b a))
    (hcomm : ∀ b a a', P b → step (step b a) a' = step (step b a') a)
    {l l' : List α} (h : l.Perm l') :
    ∀ b, P b → l.foldl step b = l'.foldl step b := by
  induction h with
  | nil => intro b _; rfl
  | cons x _ ih =>
    intro b hb
    simpa using ih (step b x) (hpres b x hb)
  | swap x y l =>
    intro b hb
    simp [hcomm b y x hb]
  | trans h₁ _ ih₁ ih₂ =>
    intro b hb
    rw [ih₁ b hb, ih₂ b hb]

/-- Generic: the invariant is preserved by a whole fold. -/
theorem foldl_pres {α β : Type} (step : β → α → β) (P : β → Prop)
    (hpres : ∀ b a, P b → P (step b a)) (l : List α) :
    ∀ b, P b → P (l.foldl step b) := by
  induction l with
  | nil => exact fun b hb => hb
  | cons a l ih => exact fun b hb => ih (step b a) (hpres b a hb)

/-- Generic: under the invariant, a step can be pulled out of a fold. -/
theorem foldl_step_out {α β : Type} (step : β → α → β) (P : β → Prop)
    (hpres : ∀ b a, P b → P (step b a))
    (hcomm : ∀ b a a', P b → step (step b a) a' = step (step b a') a)
    (l : List α) :
    ∀ b a, P b → l.foldl step (step b a) = step (l.foldl step b) a := by
  induction l with
  | nil => intro b a _; rfl
  | cons c l ih =>
    intro b a hb
    rw [List.foldl_cons, List.foldl_cons, hcomm b a c hb,
      ih (step b c) a (hpres b c hb)]

/-- Generic: under the invariant, two successive folds commute. -/
theorem foldl_foldl_comm {α β : Type} (step : β → α → β) (P : β → Prop)
    (hpres : ∀ b a, P b → P (step b a))
    (hcomm : ∀ b a a', P b → step (step b a) a' = step (step b a') a)
    (l₁ l₂ : List α) :
    ∀ b, P b → l₂.foldl step (l₁.foldl step b) = l₁.foldl step (l₂.foldl step b) := by
  induction l₂ with
  | nil => intro b _; rfl
  | cons c l₂ ih =>
    intro b hb
    rw [List.foldl_cons,
      ← foldl_step_out step P hpres hcomm l₁ b c hb,
      ih (step b c) (hpres b c hb), List.foldl_cons]

/-- C7: the Running Aggregate operations are order-independent: `update`
calls commute, `merge` is commutative and associative, folding a list of
values by `update` is invariant under permutation of the values, and merging
the aggregates of two value lists equals aggregating their concatenation
(reduction equivalence), so any order and any grouping yields the same
`(min, max, sum, count)` quadruple. -/
theorem c7_aggregate_order_independence :
    (∀ (s : Station) (v w : ℚ), (s.update v).update w = (s.update w).update v) ∧
    (∀ a b : Station, a.merge b = b.merge a) ∧
    (∀ a b c : Station, (a.merge b).merge c = a.merge (b.merge c)) ∧
    (∀ (s : Station) (l l' : List ℚ), l.Perm l' →
      l.foldl Station.update s = l'.foldl Station.update s) ∧
    (∀ l₁ l₂ : List ℚ,
      (l₁.foldl Station.update Station.default).merge
        (l₂.foldl Station.update Station.default) =
      (l₁ ++ l₂).foldl Station.update Station.default) := by
  refine ⟨Station.update_swap, Station.merge_comm, Station.merge_assoc, ?_, ?_⟩
  · intro s l l' h
    exact foldl_perm_of_comm Station.update (fun _ => True)
      (fun _ _ _ => trivial) (fun b v w _ => Station.update_swap b v w) h s trivial
  · intro l₁ l₂
    rw [List.foldl_append,
      Station.foldl_update_eq_merge l₂ (l₁.foldl Station.update Station.default)]

/-- C7 witness: the fourth conjunct applied to a concrete permutation. -/
theorem c7_aggregate_order_independence_witness :
    List.foldl Station.update Station.default [(1 : ℚ), 2] =
      List.foldl Station.update Station.default [2, 1] :=
  c7_aggregate_order_independence.2.2.2.1 Station.default [1, 2] [2, 1]
    (List.Perm.swap 2 1 [])

/-! ## The byte-wise key order -/

theorem keyLt_irrefl : ∀ a : Key, keyLt a a = false
  | [] => rfl
  | _ :: as => by simp [keyLt, keyLt_irrefl as]

theorem keyLt_ne {a b : Key} (h : keyLt a b = true) : a ≠ b := by
  intro he
  subst he
  rw [keyLt_irrefl a] at h
  exact Bool.noConfusion h

theorem keyLt_asymm : ∀ (a b : Key), keyLt a b = true → keyLt b a = false
  | [], [], h => by simp [keyLt] at h
  | [], _ :: _, _ => by simp [keyLt]
  | _ :: _, [], h => by simp [keyLt] at h
  | a :: as, b :: bs, h => by
    simp only [keyLt] at h ⊢
    rcases Nat.lt_trichotomy a b with hab | hab | hab
    · simp [hab, Nat.lt_asymm hab]
    · subst hab
      simp only [lt_irrefl, if_false] at h ⊢
      exact keyLt_asymm as bs h
    · simp [hab, Nat.lt_asymm hab] at h

theorem keyLt_conn : ∀ (a b : Key), keyLt a b = false → keyLt b a = false → a = b
  | [], [], _, _ => rfl
  | [], _ :: _, h, _ => by simp [keyLt] at h
  | _ :: _, [], _, h => by simp [keyLt] at h
  | a :: as, b :: bs, h1, h2 => by
    simp only [keyLt] at h1 h2
    rcases Nat.lt_trichotomy a b with hab | hab | hab
    · simp [hab] at h1
    · subst hab
      simp only [lt_irrefl, if_false] at h1 h2
      rw [keyLt_conn as bs h1 h2]
    · simp [hab, Nat.lt_asymm hab] at h2

/-- The keys of a map model are strictly increasing: the `BTreeMap`
invariant. -/
def sortedKeys (m : StMap) : Prop :=
  List.Pairwise (fun a b : Key × Station => keyLt a.1 b.1 = true) m

theorem mapLookup_some_mem :
    ∀ (m : StMap) (k : Key) (e : Station), mapLookup m k = some e → (k, e) ∈ m
  | [], _, _, h => by simp [mapLookup] at h
  | (k', s') :: rest, k, e, h => by
    simp only [mapLookup] at h
    by_cases hk : k = k'
    · rw [if_pos hk] at h
      subst hk
      cases h
      exact List.mem_cons_self _ _
    · rw [if_neg hk] at h
      exact List.mem_cons_of_mem _ (mapLookup_some_mem rest k e h)

theorem mapLookup_none_of_lt_head (k k' : Key) (s' : Station) (rest : StMap)
    (hs : sortedKeys ((k', s') :: rest)) (h : keyLt k k' = true) :
    mapLookup ((k', s') :: rest) k = none := by
  simp only [mapLookup, if_neg (fun he => keyLt_ne h he)]
  cases hl : mapLookup rest k with
  | none => rfl
  | some e =>
    exfalso
    have hm := mapLookup_some_mem rest k e hl
    have hlt : keyLt k' k = true := (List.pairwise_cons.mp hs).1 (k, e) hm
    rw [keyLt_asymm k k' h] at hlt
    exact Bool.noConfusion hlt

theorem mapLookup_tail_self_none (a : Key × Station) (t : StMap)
    (hs : sortedKeys (a :: t)) : mapLookup t a.1 = none := by
  cases hl : mapLookup t a.1 with
  | none => rfl
  | some e =>
    exfalso
    have hm := mapLookup_some_mem t a.1 e hl
    have hlt : keyLt a.1 a.1 = true := (List.pairwise_cons.mp hs).1 (a.1, e) hm
    rw [keyLt_irrefl a.1] at hlt
    exact Bool.noConfusion hlt

/-- Full characterization of a reducer insertion: the new entry under `k` is
the merge of the present entry (or a fresh default) with the incoming
aggregate; all other keys are untouched. -/
theorem mapLookup_insertMerge (m : StMap) (k : Key) (s : Station)
    (hm : sortedKeys m) (q : Key) :
    mapLookup (insertMerge m k s) q =
      if q = k then some (((mapLookup m k).getD Station.default).merge s)
      else mapLookup m q := by
  induction m with
  | nil => simp [insertMerge, mapLookup]
  | cons hd rest ih =>
    obtain ⟨k', s'⟩ := hd
    have hrest : sortedKeys rest := (List.pairwise_cons.mp hm).2
    by_cases hkk : k = k'
    · subst hkk
      simp only [insertMerge, if_pos rfl]
      by_cases hq : q = k
      · subst hq
        simp [mapLookup]
      · simp [mapLookup, hq]
    · by_cases hlt : keyLt k k' = true
      · simp only [insertMerge, if_neg hkk, if_pos hlt]
        by_cases hq : q = k
        · subst hq
          rw [mapLookup_none_of_lt_head q k' s' rest hm hlt]
          simp [mapLookup]
        · simp [mapLookup, hq]
      · have hlt' : keyLt k' k = true := by
          cases hgt : keyLt k' k
          · exact absurd (keyLt_conn k k' (Bool.not_eq_true _ ▸ hlt) hgt).symm
              (Ne.symm hkk)
          · rfl
        simp only [insertMerge, if_neg hkk, if_neg hlt]
        by_cases hq : q = k'
        · subst hq
          have hqk : q ≠ k := fun he => hkk he.symm
          simp [mapLookup, hqk, if_neg (fun h => hqk h)]
        · simp only [mapLookup, if_neg hq]
          rw [ih hrest]
          by_cases hqk : q = k
          · subst hqk
            simp [mapLookup, if_neg (fun h : q = k' => hq h), hkk]
          · simp [hqk]

/-- C8: one reducer fold step
(`results_writer.entry(name).or_default().merge(station)`): if the key is
absent from the (sorted) global map, the resulting entry is exactly the
incoming aggregate (merging into a fresh default copies it); if present, the
resulting entry is the merge of the existing and incoming aggregates. -/
theorem c8_reducer_fold_step (m : StMap) (k : Key) (s : Station)
    (hm : sortedKeys m) :
    (mapLookup m k = none → mapLookup (insertMerge m k s) k = some s) ∧
    (∀ e, mapLookup m k = some e →
      mapLookup (insertMerge m k s) k = some (e.merge s)) := by
  constructor
  · intro h
    rw [mapLookup_insertMerge m k s hm k, if_pos rfl, h]
    simp [Station.default_merge]
  · intro e h
    rw [mapLookup_insertMerge m k s hm k, if_pos rfl, h]
    rfl

/-- C8 witness: inserting under the absent key `"a"` next to the present key
`"b"` stores exactly the incoming aggregate. -/
theorem c8_reducer_fold_step_witness :
    mapLookup (insertMerge [([98], Station.default.update 2)] [97]
      (Station.default.update 1)) [97] = some (Station.default.update 1) :=
  (c8_reducer_fold_step [([98], Station.default.update 2)] [97]
    (Station.default.update 1) (by simp [sortedKeys])).1 (by decide)

theorem keyLt_trans : ∀ (a b c : Key),
    keyLt a b = true → keyLt b c = true → keyLt a c = true
  | [], b, c, h1, h2 => by
    cases c with
    | nil =>
      cases b with
      | nil => exact h1
      | cons y ys => simp [keyLt] at h2
    | cons z zs => simp [keyLt]
  | _ :: _, [], _, h1, _ => by simp [keyLt] at h1
  | _ :: _, _ :: _, [], _, h2 => by simp [keyLt] at h2
  | a :: as, b :: bs, c :: cs, h1, h2 => by
    simp only [keyLt] at h1 h2 ⊢
    rcases Nat.lt_trichotomy a b with hab | hab | hab
    · rcases Nat.lt_trichotomy b c with hbc | hbc | hbc
      · simp [Nat.lt_trans hab hbc]
      · subst hbc; simp [hab]
      · simp [hbc, Nat.lt_asymm hbc] at h2
    · subst hab
      simp only [lt_irrefl, if_false] at h1
      rcases Nat.lt_trichotomy a c with hac | hac | hac
      · simp [hac]
      · subst hac
        simp only [lt_irrefl, if_false] at h2 ⊢
        exact keyLt_trans as bs cs h1 h2
      · simp [hac, Nat.lt_asymm hac] at h2
    · simp [hab, Nat.lt_asymm hab] at h1

theorem keyLt_of_not_lt_of_ne {a b : Key} (h1 : keyLt a b = false) (h2 : a ≠ b) :
    keyLt b a = true := by
  cases h : keyLt b a
  · exact absurd (keyLt_conn a b h1 h) h2
  · rfl

theorem insertMerge_keys_subset :
    ∀ (m : StMap) (k : Key) (s : Station) (p : Key × Station),
      p ∈ insertMerge m k s → p.1 = k ∨ p.1 ∈ m.map Prod.fst
  | [], k, s, p, h => by
    simp only [insertMerge, List.mem_singleton] at h
    subst h
    exact Or.inl rfl
  | (k', s') :: rest, k, s, p, h => by
    simp only [insertMerge] at h
    by_cases hkk : k = k'
    · rw [if_pos hkk] at h
      rcases List.mem_cons.mp h with h | h
      · subst h
        exact Or.inr (by simp)
      · exact Or.inr (by simp [List.mem_map]; exact Or.inr ⟨p.2, by simpa using h⟩)
    · rw [if_neg hkk] at h
      by_cases hlt : keyLt k k' = true
      · rw [if_pos hlt] at h
        rcases List.mem_cons.mp h with h | h
        · subst h
          exact Or.inl rfl
        · rcases List.mem_cons.mp h with h | h
          · subst h
            exact Or.inr (by simp)
          · exact Or.inr (by simp [List.mem_map]; exact Or.inr ⟨p.2, by simpa using h⟩)
      · rw [if_neg hlt] at h
        rcases List.mem_cons.mp h with h | h
        · subst h
          exact Or.inr (by simp)
        · rcases insertMerge_keys_subset rest k s p h with h | h
          · exact Or.inl h
          · exact Or.inr (by simp [h])

theorem sortedKeys_insertMerge (m : StMap) (k : Key) (s : Station)
    (hm : sortedKeys m) : sortedKeys (insertMerge m k s) := by
  induction m with
  | nil => simp [insertMerge, sortedKeys]
  | cons hd rest ih =>
    obtain ⟨k', s'⟩ := hd
    rcases List.pairwise_cons.mp hm with ⟨hhead, hrest⟩
    by_cases hkk : k = k'
    · subst hkk
      simp only [insertMerge, if_pos rfl]
      exact List.pairwise_cons.mpr ⟨fun p hp => hhead p hp, hrest⟩
    · by_cases hlt : keyLt k k' = true
      · simp only [insertMerge, if_neg hkk, if_pos hlt]
        refine List.pairwise_cons.mpr ⟨?_, hm⟩
        intro p hp
        rcases List.mem_cons.mp hp with h | h
        · rw [h]
          exact hlt
        · exact keyLt_trans k k' p.1 hlt (hhead p h)
      · have hlt' : keyLt k' k = true :=
          keyLt_of_not_lt_of_ne (Bool.not_eq_true _ ▸ hlt) hkk
        simp only [insertMerge, if_neg hkk, if_neg hlt]
        refine List.pairwise_cons.mpr ⟨?_, ih hrest⟩
        intro p hp
        rcases insertMerge_keys_subset rest k s p hp with h | h
        · rw [h]
          exact hlt'
        · rcases List.mem_map.mp h with ⟨q, hq, hq1⟩
          rw [← hq1]
          exact hhead q hq

theorem sorted_map_ext :
    ∀ (m₁ m₂ : StMap), sortedKeys m₁ → sortedKeys m₂ →
      (∀ q, mapLookup m₁ q = mapLookup m₂ q) → m₁ = m₂
  | [], [], _, _, _ => rfl
  | [], (b :: t₂), _, _, h => by
    have hb := h b.1
    simp [mapLookup] at hb
  | (a :: t₁), [], _, _, h => by
    have ha := h a.1
    simp [mapLookup] at ha
  | (a :: t₁), (b :: t₂), h₁, h₂, h => by
    obtain ⟨ak, av⟩ := a
    obtain ⟨bk, bv⟩ := b
    have hk : ak = bk := by
      by_contra hne
      by_cases hlt : keyLt ak bk = true
      · have hn := mapLookup_none_of_lt_head ak bk bv t₂ h₂ hlt
        have := h ak
        rw [hn] at this
        simp [mapLookup] at this
      · have hlt' : keyLt bk ak = true :=
          keyLt_of_not_lt_of_ne (Bool.not_eq_true _ ▸ hlt) hne
        have hn := mapLookup_none_of_lt_head bk ak av t₁ h₁ hlt'
        have := h bk
        rw [hn] at this
        simp [mapLookup] at this
    subst hk
    have hv : av = bv := by
      have := h ak
      simpa [mapLookup] using this
    subst hv
    have htl : ∀ q, mapLookup t₁ q = mapLookup t₂ q := by
      intro q
      by_cases hq : q = ak
      · subst hq
        rw [mapLookup_tail_self_none (q, av) t₁ h₁,
          mapLookup_tail_self_none (q, av) t₂ h₂]
      · have := h q
        simpa [mapLookup, if_neg hq] using this
    rw [sorted_map_ext t₁ t₂ (List.pairwise_cons.mp h₁).2
      (List.pairwise_cons.mp h₂).2 htl]

theorem insertMerge_comm_sorted (g : StMap) (hg : sortedKeys g)
    (k₁ : Key) (s₁ : Station) (k₂ : Key) (s₂ : Station) :
    insertMerge (insertMerge g k₁ s₁) k₂ s₂ =
      insertMerge (insertMerge g k₂ s₂) k₁ s₁ := by
  have hg₁ := sortedKeys_insertMerge g k₁ s₁ hg
  have hg₂ := sortedKeys_insertMerge g k₂ s₂ hg
  apply sorted_map_ext _ _ (sortedKeys_insertMerge _ k₂ s₂ hg₁)
    (sortedKeys_insertMerge _ k₁ s₁ hg₂)
  intro q
  rw [mapLookup_insertMerge _ k₂ s₂ hg₁ q, mapLookup_insertMerge _ k₁ s₁ hg₂ q,
    mapLookup_insertMerge g k₁ s₁ hg q, mapLookup_insertMerge g k₁ s₁ hg k₂,
    mapLookup_insertMerge g k₂ s₂ hg q, mapLookup_insertMerge g k₂ s₂ hg k₁]
  by_cases h2 : q = k₂ <;> by_cases h1 : q = k₁
  · subst h1
    subst h2
    simp [Station.merge_right_comm]
  · subst h2
    have h12 : ¬ k₁ = q := fun hh => h1 hh.symm
    simp [h1, h12]
  · subst h1
    have h21 : ¬ k₂ = q := fun hh => h2 hh.symm
    simp [h2, h21]
  · simp [h1, h2]

theorem sortedKeys_chunkFold (g : StMap) (cm : StMap) (hg : sortedKeys g) :
    sortedKeys (chunkFold g cm) := by
  unfold chunkFold
  exact foldl_pres (fun g' e => insertMerge g' e.1 e.2) sortedKeys
    (fun b a hb => sortedKeys_insertMerge b a.1 a.2 hb) cm g hg

theorem chunkFold_comm (g : StMap) (c₁ c₂ : StMap) (hg : sortedKeys g) :
    chunkFold (chunkFold g c₁) c₂ = chunkFold (chunkFold g c₂) c₁ := by
  unfold chunkFold
  exact foldl_foldl_comm (fun g' e => insertMerge g' e.1 e.2) sortedKeys
    (fun b a hb => sortedKeys_insertMerge b a.1 a.2 hb)
    (fun b a a' hb => insertMerge_comm_sorted b hb a.1 a.2 a'.1 a'.2) c₁ c₂ g hg

theorem reduceAll_perm (cs cs' : List StMap) (h : cs.Perm cs') :
    reduceAll cs = reduceAll cs' :=
  foldl_perm_of_comm chunkFold sortedKeys
    (fun b a hb => sortedKeys_chunkFold b a hb)
    (fun b a a' hb => chunkFold_comm b a a' hb) h [] (by simp [sortedKeys])

theorem sortedKeys_reduceAll (cs : List StMap) : sortedKeys (reduceAll cs) :=
  foldl_pres chunkFold sortedKeys (fun b a hb => sortedKeys_chunkFold b a hb)
    cs [] (by simp [sortedKeys])

/-- C9: for a fixed partition plan the output is deterministic: folding the
chunk-local mappings into the global map in any completion order (any
permutation) yields the same global map, hence the same printed string, and
the global map the Formatter walks is always in strictly ascending
byte-lexicographic key order. -/
theorem c9_deterministic_output (cs cs' : List StMap) (h : cs.Perm cs') :
    formatOutput (reduceAll cs) = formatOutput (reduceAll cs') ∧
    sortedKeys (reduceAll cs) :=
  ⟨congrArg formatOutput (reduceAll_perm cs cs' h), sortedKeys_reduceAll cs⟩

/-- C9 witness: two chunk maps merged in either completion order. -/
theorem c9_deterministic_output_witness :
    formatOutput (reduceAll [[([97], Station.default.update 1)],
        [([98], Station.default.update 2)]]) =
      formatOutput (reduceAll [[([98], Station.default.update 2)],
        [([97], Station.default.update 1)]]) ∧
    sortedKeys (reduceAll [[([97], Station.default.update 1)],
        [([98], Station.default.update 2)]]) :=
  c9_deterministic_output _ _ (List.Perm.swap _ _ _)

/-! ## The tokenizer's last-separator rule -/

theorem getD_drop (t : List Nat) : ∀ (n m : ℕ), (t.drop n).getD m 0 = t.getD (n + m) 0 := by
  induction t with
  | nil => intro n m; simp
  | cons a t ih =>
    intro n m
    cases n with
    | zero => simp
    | succ n =>
      rw [List.drop_succ_cons, ih n m]
      have : n + 1 + m = (n + m) + 1 := by omega
      rw [this, List.getD_cons_succ]

theorem getD_take (t : List Nat) : ∀ (n m : ℕ), m < n → (t.take n).getD m 0 = t.getD m 0 := by
  induction t with
  | nil => intro n m _; simp
  | cons a t ih =>
    intro n m hm
    cases n with
    | zero => omega
    | succ n =>
      rw [List.take_succ_cons]
      cases m with
      | zero => simp
      | succ m => rw [List.getD_cons_succ, List.getD_cons_succ, ih n m (by omega)]

theorem foldl_if_eq_filter (p : ℕ → Prop) [DecidablePred p] :
    ∀ (L : List ℕ) (init : ℕ),
      L.foldl (fun acc j => if p j then j else acc) init =
        ((L.filter (fun j => decide (p j))).getLast?).getD init := by
  intro L
  induction L with
  | nil => intro init; rfl
  | cons a L ih =>
    intro init
    rw [List.foldl_cons]
    by_cases ha : p a
    · rw [if_pos ha, ih a]
      have hf : List.filter (fun j => decide (p j)) (a :: L) =
          a :: List.filter (fun j => decide (p j)) L := by
        simp [List.filter_cons, ha]
      rw [hf]
      cases hfl : List.filter (fun j => decide (p j)) L with
      | nil => simp
      | cons b l' =>
        have hgl : (b :: l').getLast? = some ((b :: l').getLast (List.cons_ne_nil b l')) :=
          List.getLast?_eq_getLast _ _
        rw [List.getLast?_cons_cons, hgl]
        rfl
    · rw [if_neg ha, ih init]
      have hf : List.filter (fun j => decide (p j)) (a :: L) =
          List.filter (fun j => decide (p j)) L := by
        simp [List.filter_cons, ha]
      rw [hf]

theorem filter_range'_getLast (t : List Nat) (lo n k : ℕ) (hk : k < n)
    (hsep : t.getD (lo + k) 0 = 59)
    (hafter : ∀ j, k < j → j < n → t.getD (lo + j) 0 ≠ 59) :
    ((List.range' lo n).filter (fun j => decide (t.getD j 0 = 59))).getLast?
      = some (lo + k) := by
  have hsplit : List.range' lo (k + 1) ++ List.range' (lo + (k + 1)) (n - (k + 1))
      = List.range' lo n := by
    have h := List.range'_append lo (k + 1) (n - (k + 1)) 1
    simp only [one_mul] at h
    rw [h]
    congr 1
    omega
  rw [← hsplit, List.filter_append]
  have h2 : (List.range' (lo + (k + 1)) (n - (k + 1))).filter
      (fun j => decide (t.getD j 0 = 59)) = [] := by
    rw [List.filter_eq_nil_iff]
    intro j hj
    rw [List.mem_range'_1] at hj
    simp only [decide_eq_true_eq]
    have hj' : j = lo + (j - lo) := by omega
    rw [hj']
    exact hafter (j - lo) (by omega) (by omega)
  rw [h2, List.append_nil]
  have hone : List.range' lo (k + 1) = List.range' lo k ++ [lo + k] := by
    have h := List.range'_append lo k 1 1
    simp only [one_mul] at h
    rw [Nat.add_comm 1 k] at h
    rw [← h, List.range'_one]
  rw [hone, List.filter_append]
  have hb : decide (t.getD (lo + k) 0 = 59) = true := decide_eq_true hsep
  have hlast : List.filter (fun j => decide (t.getD j 0 = 59)) [lo + k] = [lo + k] := by
    simp only [List.filter_cons, List.filter_nil, hb]
    rfl
  rw [hlast, List.getLast?_concat]

theorem lastSepIdx_eq (t : List Nat) (lo hi k : ℕ) (hk : k < hi - lo)
    (hsep : t.getD (lo + k) 0 = 59)
    (hafter : ∀ j, k < j → j < hi - lo → t.getD (lo + j) 0 ≠ 59) :
    lastSepIdx t lo hi = lo + k := by
  unfold lastSepIdx
  rw [foldl_if_eq_filter (fun j => t.getD j 0 = 59) (List.range' lo (hi - lo)) 0,
    filter_range'_getLast t lo (hi - lo) k hk hsep hafter]
  rfl

/-- C6: the tokenizer splits a record at the LAST semicolon: whenever `k` is
the position of the last separator byte inside the record `[lo, hi)` of a
chunk, the split produces exactly the bytes before position `k` as the key
and the bytes after it as the value — even when the key bytes themselves
contain separators. -/
theorem c6_last_separator_split (t : List Nat) (lo hi k : ℕ)
    (hlo : lo ≤ hi) (hhi : hi ≤ t.length) (hk : k < hi - lo)
    (hsep : (recordSlice t lo hi).getD k 0 = 59)
    (hafter : ∀ j < hi - lo, k < j → (recordSlice t lo hi).getD j 0 ≠ 59) :
    splitLine t lo hi =
      some ((recordSlice t lo hi).take k, (recordSlice t lo hi).drop (k + 1)) := by
  have hconv : ∀ j, j < hi - lo → (recordSlice t lo hi).getD j 0 = t.getD (lo + j) 0 := by
    intro j hj
    unfold recordSlice
    rw [getD_take _ _ _ hj, getD_drop]
  have hsep' : t.getD (lo + k) 0 = 59 := by
    rw [← hconv k hk]
    exact hsep
  have hafter' : ∀ j, k < j → j < hi - lo → t.getD (lo + j) 0 ≠ 59 := by
    intro j h1 h2
    rw [← hconv j h2]
    exact hafter j h2 h1
  have hsi : lastSepIdx t lo hi = lo + k := lastSepIdx_eq t lo hi k hk hsep' hafter'
  have htake : (t.drop lo).take (lo + k - lo) = (recordSlice t lo hi).take k := by
    unfold recordSlice
    rw [List.take_take]
    have h1 : lo + k - lo = k := by omega
    have h2 : k ⊓ (hi - lo) = k := min_eq_left (le_of_lt hk)
    rw [h1, h2]
  have hdrop : (t.drop (lo + k + 1)).take (hi - (lo + k + 1)) =
      (recordSlice t lo hi).drop (k + 1) := by
    unfold recordSlice
    rw [List.drop_take, List.drop_drop]
    have h1 : lo + (k + 1) = lo + k + 1 := by omega
    have h2 : hi - lo - (k + 1) = hi - (lo + k + 1) := by omega
    rw [h1, h2]
  simp only [splitLine, hsi]
  rw [if_neg (by omega), if_neg (by omega), htake, hdrop]

/-- C6 witness: the record `"a;b;1.0"` (a key containing a semicolon) splits
at the last separator into key `"a;b"` and value `"1.0"`. -/
theorem c6_last_separator_split_witness :
    splitLine [97, 59, 98, 59, 49, 46, 48] 0 7 =
      some ([97, 59, 98], [49, 46, 48]) :=
  c6_last_separator_split [97, 59, 98, 59, 49, 46, 48] 0 7 3
    (by decide) (by decide) (by decide) (by decide) (by decide)

/-! ## The final one-byte fragment of a chunk -/

theorem getD_append_lt (l l' : List Nat) :
    ∀ i, i < l.length → (l ++ l').getD i 0 = l.getD i 0 := by
  induction l with
  | nil => intro i hi; simp at hi
  | cons a l ih =>
    intro i hi
    cases i with
    | zero => rfl
    | succ i =>
      rw [List.cons_append, List.getD_cons_succ, List.getD_cons_succ]
      exact ih i (by simpa using hi)

theorem getD_append_len (l : List Nat) (b : ℕ) :
    (l ++ [b]).getD l.length 0 = b := by
  induction l with
  | nil => rfl
  | cons a l ih => rw [List.cons_append, List.length_cons, List.getD_cons_succ, ih]

theorem lastSepIdx_append (t : List Nat) (b : ℕ) (lo hi : ℕ) (hhi : hi ≤ t.length) :
    lastSepIdx (t ++ [b]) lo hi = lastSepIdx t lo hi := by
  unfold lastSepIdx
  rw [foldl_if_eq_filter (fun j => (t ++ [b]).getD j 0 = 59) (List.range' lo (hi - lo)) 0,
    foldl_if_eq_filter (fun j => t.getD j 0 = 59) (List.range' lo (hi - lo)) 0]
  have hfc : List.filter (fun j => decide ((t ++ [b]).getD j 0 = 59)) (List.range' lo (hi - lo))
      = List.filter (fun j => decide (t.getD j 0 = 59)) (List.range' lo (hi - lo)) := by
    apply List.filter_congr
    intro j hj
    rw [List.mem_range'_1] at hj
    have hjlen : j < t.length := by omega
    rw [getD_append_lt t [b] j hjlen]
  rw [hfc]

theorem splitLine_append (t : List Nat) (b : ℕ) (lo hi : ℕ) (hhi : hi ≤ t.length) :
    splitLine (t ++ [b]) lo hi = splitLine t lo hi := by
  unfold splitLine
  rw [lastSepIdx_append t b lo hi hhi]
  by_cases h1 : lastSepIdx t lo hi < lo
  · rw [if_pos h1, if_pos h1]
  · rw [if_neg h1, if_neg h1]
    by_cases h2 : hi < lastSepIdx t lo hi + 1
    · rw [if_pos h2, if_pos h2]
    · rw [if_neg h2, if_neg h2]
      have hsi : lo ≤ lastSepIdx t lo hi ∧ lastSepIdx t lo hi + 1 ≤ hi := by omega
      have hd1 : (t ++ [b]).drop lo = t.drop lo ++ [b] :=
        List.drop_append_of_le_length (by omega)
      have hd2 : (t ++ [b]).drop (lastSepIdx t lo hi + 1) =
          t.drop (lastSepIdx t lo hi + 1) ++ [b] :=
        List.drop_append_of_le_length (by omega)
      rw [hd1, hd2, List.take_append_of_le_length (by simp; omega),
        List.take_append_of_le_length (by simp; omega)]

theorem chunkLoop_append (t : List Nat) (b : ℕ) (hb : b ≠ 10) :
    ∀ (fuel₂ fuel₁ i li : ℕ) (m : StMap), i ≤ t.length →
      t.length + 1 - i ≤ fuel₁ → t.length + 2 - i ≤ fuel₂ →
      chunkLoop (t ++ [b]) fuel₂ i li m = chunkLoop t fuel₁ i li m := by
  intro fuel₂
  induction fuel₂ with
  | zero => intro fuel₁ i li m hi _ h2; omega
  | succ f₂ ih =>
    intro fuel₁ i li m hi h1 h2
    cases fuel₁ with
    | zero => omega
    | succ f₁ =>
      by_cases hlt : i < t.length
      · have hlt' : i < (t ++ [b]).length := by simp; omega
        rw [chunkLoop, chunkLoop, if_pos hlt, if_pos hlt',
          getD_append_lt t [b] i hlt]
        by_cases h10 : t.getD i 0 = 10
        · rw [if_pos h10, if_pos h10, splitLine_append t b li i (le_of_lt hlt)]
          cases hsp : splitLine t li i with
          | none => rfl
          | some p =>
            obtain ⟨name, vb⟩ := p
            dsimp only
            cases hpn : parseNum vb with
            | none => rfl
            | some v =>
              exact ih f₁ (i + 1) (i + 1) (insertUpdate m name v)
                (by omega) (by omega) (by omega)
        · rw [if_neg h10, if_neg h10]
          exact ih f₁ (i + 1) li m (by omega) (by omega) (by omega)
      · have hieq : i = t.length := by omega
        have hlt' : i < (t ++ [b]).length := by simp; omega
        rw [chunkLoop, chunkLoop, if_pos hlt', if_neg hlt]
        have hbyte : (t ++ [b]).getD i 0 = b := by rw [hieq]; exact getD_append_len t b
        rw [hbyte, if_neg hb]
        cases f₂ with
        | zero => omega
        | succ f₂' =>
          rw [chunkLoop, if_neg (by simp; omega)]

theorem chunkLoop_exit (t : List Nat) (fuel i li : ℕ) (m : StMap)
    (r : StMap × ℕ) (hi : t.length ≤ i) (h : chunkLoop t fuel i li m = some r) :
    r = (m, li) := by
  cases fuel with
  | zero => simp [chunkLoop] at h
  | succ f =>
    rw [chunkLoop, if_neg (by omega)] at h
    exact (Option.some_inj.mp h).symm

theorem chunkLoop_ends (t : List Nat) (hterm : t.getD (t.length - 1) 0 = 10) :
    ∀ (fuel i li : ℕ) (m : StMap) (r : StMap × ℕ), i < t.length →
      chunkLoop t fuel i li m = some r → r.2 = t.length := by
  intro fuel
  induction fuel with
  | zero => intro i li m r _ h; simp [chunkLoop] at h
  | succ f ih =>
    intro i li m r hi h
    rw [chunkLoop, if_pos hi] at h
    by_cases hlast : i = t.length - 1
    · have hb10 : t.getD i 0 = 10 := by rw [hlast]; exact hterm
      rw [if_pos hb10] at h
      cases hsp : splitLine t li i with
      | none => rw [hsp] at h; simp at h
      | some p =>
        obtain ⟨name, vb⟩ := p
        rw [hsp] at h
        dsimp only at h
        cases hpn : parseNum vb with
        | none => rw [hpn] at h; simp at h
        | some v =>
          rw [hpn] at h
          have := chunkLoop_exit t f (i + 1) (i + 1) (insertUpdate m name v) r
            (by omega) h
          rw [this]
          simp
          omega
    · by_cases h10 : t.getD i 0 = 10
      · rw [if_pos h10] at h
        cases hsp : splitLine t li i with
        | none => rw [hsp] at h; simp at h
        | some p =>
          obtain ⟨name, vb⟩ := p
          rw [hsp] at h
          dsimp only at h
          cases hpn : parseNum vb with
          | none => rw [hpn] at h; simp at h
          | some v =>
            rw [hpn] at h
            exact ih (i + 1) (i + 1) (insertUpdate m name v) r (by omega) h
      · rw [if_neg h10] at h
        exact ih (i + 1) li m r (by omega) h

/-- C10: when the trimmed contents of a chunk consist of terminated records
followed by a one-byte unterminated fragment (exactly one byte after the last
terminator), the Chunk Processor silently drops the fragment: the final-line
branch is skipped (`last_idx < content_len - 1` fails), so the processor's
result is exactly the tokenizing loop's result over the terminated records
alone — the fragment triggers neither an `update` nor a parse. -/
theorem c10_one_byte_fragment_ignored (c pre : List Nat) (b : ℕ)
    (hb : b ≠ 10) (ht : trimContents c = pre ++ [10, b]) :
    processChunk c = (chunkLoop (pre ++ [10]) (pre.length + 2) 0 0 []).map Prod.fst := by
  have hc : c ≠ [] := by
    intro h
    subst h
    simp [trimContents] at ht
  have hemp : c.isEmpty = false := by
    cases c with
    | nil => exact absurd rfl hc
    | cons x xs => rfl
  simp only [processChunk, hemp, Bool.false_eq_true, if_false, ht]
  have happ : pre ++ [10, b] = (pre ++ [10]) ++ [b] := by simp
  have hlen1 : (pre ++ [10, b]).length = pre.length + 2 := by simp
  have hloop : chunkLoop (pre ++ [10, b]) ((pre ++ [10, b]).length + 1) 0 0 [] =
      chunkLoop (pre ++ [10]) (pre.length + 2) 0 0 [] := by
    rw [hlen1, happ]
    exact chunkLoop_append (pre ++ [10]) b hb (pre.length + 2 + 1) (pre.length + 2)
      0 0 [] (by simp) (by simp) (by simp)
  rw [hloop]
  cases hres : chunkLoop (pre ++ [10]) (pre.length + 2) 0 0 [] with
  | none => rfl
  | some r =>
    obtain ⟨m, li⟩ := r
    have hterm : (pre ++ [10]).getD ((pre ++ [10]).length - 1) 0 = 10 := by
      have h1 : (pre ++ [10]).length - 1 = pre.length := by simp
      rw [h1, getD_append_len]
    have hli : li = pre.length + 1 := by
      have h2 := chunkLoop_ends (pre ++ [10]) hterm (pre.length + 2) 0 0 []
        (m, li) (by simp) hres
      simpa using h2
    dsimp only
    have hcond : ¬ (li + 1 < (pre ++ [10, b]).length ∨ (pre ++ [10, b]).length = 0) := by
      rw [hli, hlen1]
      omega
    rw [if_neg hcond]
    rfl

/-- C10 witness: the chunk `"a;1.0\nb"` whose final fragment is the single
byte `"b"` yields exactly the loop result over `"a;1.0\n"`. -/
theorem c10_one_byte_fragment_ignored_witness :
    processChunk [97, 59, 49, 46, 48, 10, 98] =
      (chunkLoop [97, 59, 49, 46, 48, 10] 7 0 0 []).map Prod.fst :=
  c10_one_byte_fragment_ignored [97, 59, 49, 46, 48, 10, 98]
    [97, 59, 49, 46, 48] 98 (by decide) (by decide)

/-! ## Planner boundary invariants -/

theorem scanNL_some (file : List Nat) :
    ∀ (fuel pos last p : ℕ), scanNL file fuel pos last = some p →
      (file.length ≤ pos → p = pos ∧ (last = 10 ∨ last = 0)) ∧
      (pos < file.length → pos < p ∧ p ≤ file.length ∧
        (file.getD (p - 1) 0 = 10 ∨ file.getD (p - 1) 0 = 0)) := by
  intro fuel
  induction fuel with
  | zero => intro pos last p h; simp [scanNL] at h
  | succ f ih =>
    intro pos last p h
    rw [scanNL] at h
    by_cases hpos : pos < file.length
    · rw [if_pos hpos] at h
      refine ⟨fun hle => absurd hpos (by omega), fun _ => ?_⟩
      by_cases hb : file.getD pos 0 = 10 ∨ file.getD pos 0 = 0
      · rw [if_pos hb] at h
        have hp : p = pos + 1 := (Option.some_inj.mp h).symm
        refine ⟨by omega, by omega, ?_⟩
        have hp1 : p - 1 = pos := by omega
        rw [hp1]
        exact hb
      · rw [if_neg hb] at h
        have hrec := ih (pos + 1) (file.getD pos 0) p h
        by_cases h2 : pos + 1 < file.length
        · obtain ⟨h3, h4, h5⟩ := hrec.2 h2
          exact ⟨by omega, h4, h5⟩
        · obtain ⟨_, h6⟩ := hrec.1 (by omega)
          exact absurd h6 hb
    · rw [if_neg hpos] at h
      by_cases hl : last = 10 ∨ last = 0
      · rw [if_pos hl] at h
        have hp : p = pos := (Option.some_inj.mp h).symm
        exact ⟨fun _ => ⟨hp, hl⟩, fun hlt => absurd hlt hpos⟩
      · rw [if_neg hl] at h
        exact absurd h (by simp)

theorem planLoop_invariant (file : List Nat) (d : ℕ) :
    ∀ (n pos : ℕ) (acc offs : List ℕ),
      planLoop file d n pos acc = some offs →
      acc.head? = some pos →
      List.Chain' (fun a b => b < a) acc →
      (∀ a ∈ acc, a ≤ file.length) →
      (∀ a ∈ acc, a = 0 ∨
        (0 < a ∧ (file.getD (a - 1) 0 = 10 ∨ file.getD (a - 1) 0 = 0))) →
      List.Chain' (· < ·) offs ∧ offs.head? = acc.getLast? ∧
      (∀ o ∈ offs, o ≤ file.length) ∧
      (∀ o ∈ offs, o = 0 ∨
        (0 < o ∧ (file.getD (o - 1) 0 = 10 ∨ file.getD (o - 1) 0 = 0))) := by
  intro n
  induction n with
  | zero =>
    intro pos acc offs h hhead hchain hle hafter
    have hoffs : offs = acc.reverse := (Option.some_inj.mp h).symm
    subst hoffs
    refine ⟨List.chain'_reverse.mpr hchain, List.head?_reverse acc, ?_, ?_⟩
    · intro o ho
      exact hle o (List.mem_reverse.mp ho)
    · intro o ho
      exact hafter o (List.mem_reverse.mp ho)
  | succ n ih =>
    intro pos acc offs h hhead hchain hle hafter
    rw [planLoop] at h
    by_cases hend : file.length ≤ pos + d
    · rw [if_pos hend] at h
      have hoffs : offs = acc.reverse := (Option.some_inj.mp h).symm
      subst hoffs
      refine ⟨List.chain'_reverse.mpr hchain, List.head?_reverse acc, ?_, ?_⟩
      · intro o ho
        exact hle o (List.mem_reverse.mp ho)
      · intro o ho
        exact hafter o (List.mem_reverse.mp ho)
    · rw [if_neg hend] at h
      cases hscan : scanNL file (file.length + 1) (pos + d) 0 with
      | none => rw [hscan] at h; simp at h
      | some p =>
        rw [hscan] at h
        have hprop := (scanNL_some file (file.length + 1) (pos + d) 0 p hscan).2
          (by omega)
        obtain ⟨hgt, hple, hterm⟩ := hprop
        have hrec := ih p (p :: acc) offs h rfl
          (List.chain'_cons'.mpr ⟨?_, hchain⟩) ?_ ?_
        · obtain ⟨h1, h2, h3, h4⟩ := hrec
          refine ⟨h1, ?_, h3, h4⟩
          rw [h2]
          cases acc with
          | nil => simp at hhead
          | cons a t => rw [List.getLast?_cons_cons]
        · intro y hy
          rw [hhead] at hy
          have : pos = y := by simpa using hy
          omega
        · intro a ha
          rcases List.mem_cons.mp ha with rfl | ha
          · exact hple
          · exact hle a ha
        · intro a ha
          rcases List.mem_cons.mp ha with rfl | ha
          · exact Or.inr ⟨by omega, hterm⟩
          · exact hafter a ha

/-- C5 counterexample: for the file `"a\n"` with 2 requested partitions the
planner pushes the boundary 2 — exactly the file length — so the boundary
list together with its conceptual final boundary (the file length) is
`[0, 2, 2]`, which is not strictly increasing (and delimits an empty final
partition). -/
theorem c5_plan_boundaries_counterexample :
    planOffsets [97, 10] 2 = some [0, 2] ∧
    ¬ List.Chain' (· < ·) ([0, 2] ++ [([97, 10] : List Nat).length]) := by
  constructor
  · with_unfolding_all decide
  · simp [List.chain'_cons]

/-- C5 (amended): whenever planning terminates, the produced offsets are
strictly increasing, start at 0 and never exceed the file length, and every
interior offset lies immediately after a terminator byte or after a `0` byte
(the scan's botched EOF test also accepts a NUL byte as a terminator);
appending the conceptual final boundary (the file length) yields a
non-decreasing list ending at the file length — strictness of the full list
can fail only because a produced boundary may itself land exactly at the
file length. -/
theorem c5_plan_boundaries_amended (file : List Nat) (P : ℕ) (offs : List ℕ)
    (h : planOffsets file P = some offs) :
    List.Chain' (· < ·) offs ∧ offs.head? = some 0 ∧
    (∀ o ∈ offs, o ≤ file.length) ∧
    (∀ o ∈ offs.tail, 0 < o ∧
      (file.getD (o - 1) 0 = 10 ∨ file.getD (o - 1) 0 = 0)) ∧
    List.Chain' (· ≤ ·) (offs ++ [file.length]) ∧
    (offs ++ [file.length]).getLast? = some file.length := by
  unfold planOffsets at h
  have hinv := planLoop_invariant file (division file.length P) P 0 [0] offs h rfl
    (by simp) (by simp) (by simp)
  obtain ⟨hchain, hhead, hle, hafter⟩ := hinv
  have hhead0 : offs.head? = some 0 := by simpa using hhead
  have hpos : ∀ o ∈ offs.tail, 0 < o := by
    cases hoffs : offs with
    | nil => intro o ho; simp [hoffs] at ho
    | cons h0 t =>
      have h00 : h0 = 0 := by
        rw [hoffs] at hhead0
        simpa using hhead0
      subst h00
      intro o ho
      rw [hoffs] at hchain
      have hpair : List.Pairwise (· < ·) ((0 : ℕ) :: t) :=
        List.chain'_iff_pairwise.mp hchain
      exact (List.pairwise_cons.mp hpair).1 o (by simpa using ho)
  refine ⟨hchain, hhead0, hle, ?_, ?_, List.getLast?_concat _⟩
  · intro o ho
    have h0 : 0 < o := hpos o ho
    have hmem := List.mem_of_mem_tail ho
    rcases hafter o hmem with h | ⟨_, hterm⟩
    · omega
    · exact ⟨h0, hterm⟩
  · rw [List.chain'_append]
    refine ⟨hchain.imp (fun a b hab => le_of_lt hab), List.chain'_singleton _, ?_⟩
    intro x hx y hy
    have hxy : file.length = y := by simpa using hy
    rcases List.mem_getLast?_eq_getLast hx with ⟨hne, rfl⟩
    rw [← hxy]
    exact hle _ (List.getLast_mem hne)

/-- C5 witness: the amended invariants evaluated on the file `"a\nb\n"` with
2 partitions, whose plan is `[0, 4]`. -/
theorem c5_plan_boundaries_amended_witness :
    List.Chain' (· < ·) [0, 4] ∧ ([0, 4] : List ℕ).head? = some 0 ∧
    (∀ o ∈ ([0, 4] : List ℕ), o ≤ ([97, 10, 98, 10] : List Nat).length) ∧
    (∀ o ∈ ([0, 4] : List ℕ).tail, 0 < o ∧
      (([97, 10, 98, 10] : List Nat).getD (o - 1) 0 = 10 ∨
        ([97, 10, 98, 10] : List Nat).getD (o - 1) 0 = 0)) ∧
    List.Chain' (· ≤ ·) ([0, 4] ++ [([97, 10, 98, 10] : List Nat).length]) ∧
    (([0, 4] : List ℕ) ++ [([97, 10, 98, 10] : List Nat).length]).getLast? =
      some ([97, 10, 98, 10] : List Nat).length :=
  c5_plan_boundaries_amended [97, 10, 98, 10] 2 [0, 4] (by with_unfolding_all decide)
